import Mathlib

/-!
Shallow embedding of the `edmu` Django utility package.

* `Edmu.Row`, `Edmu.maxBelow`, `Edmu.minAbove`, `Edmu.applySwap`,
  `Edmu.OrderedModel._move` and its wrappers embed
  `edmu/models.py` (`OrderedModel.save`, `OrderedModel._move`,
  `move`, `move_up`, `move_down`).
  The database table of the concrete model class is a `List Row`;
  a row's primary key identifies it, `save` on a row with a primary
  key writes its fields back to the row with the same key.
* `Edmu.SRow`, `Edmu.maxOrder`, `Edmu.newOrder`, `Edmu.OrderedModel.save`
  embed the rank assignment in `OrderedModel.save`
  (`c = aggregate(Max('order'))['order__max']; self.order = c and c + 1 or 0`),
  including the Python truthiness semantics of `c and c + 1 or 0`.
* `Edmu.UserStampedAdmin.save_model` / `save_formset` embed `edmu/admin.py`.
* `Edmu.IsOwner`, `Edmu.IsOwnerOrReadOnly`, `Edmu.HasRole` embed
  `edmu/api/permissions.py`.
* `Edmu.get_object_or_404` / `Edmu.get_object_or_permission_denied` embed
  `edmu/api/shortcuts.py`; a lookup's possible outcomes are the
  constructors of `Edmu.LookupOutcome`.
-/

namespace Edmu

/-- A persisted row of a concrete `OrderedModel` subclass: a primary key
and the value of the `order` field (`PositiveIntegerField`, hence `Nat`). -/
structure Row where
  pk : Nat
  order : Nat
deriving DecidableEq, Repr

/-- `qs.order_by('-order').filter(order__lt=o)[0]`: a row of maximal
`order` among the rows whose `order` is strictly below `o`, if any. -/
def maxBelow (o : Nat) : List Row → Option Row
  | [] => none
  | x :: xs =>
    if x.order < o then
      match maxBelow o xs with
      | none => some x
      | some b => if x.order < b.order then some b else some x
    else maxBelow o xs

/-- `qs.filter(order__gt=o)[0]` under the model's `Meta.ordering = ('order',)`:
a row of minimal `order` among the rows whose `order` is strictly above `o`,
if any. -/
def minAbove (o : Nat) : List Row → Option Row
  | [] => none
  | x :: xs =>
    if o < x.order then
      match minAbove o xs with
      | none => some x
      | some b => if b.order < x.order then some b else some x
    else minAbove o xs

/-- The effect on one stored row of
`self.order, replacement.order = replacement.order, self.order`
followed by `self.save()` and `replacement.save()`: the row keyed
`selfPk` is stored with the replacement's old rank `replOrd`, the row
keyed `replPk` with the mover's old rank `selfOrd`. -/
def applySwap (selfPk replPk selfOrd replOrd : Nat) (x : Row) : Row :=
  if x.pk = selfPk then { x with order := replOrd }
  else if x.pk = replPk then { x with order := selfOrd }
  else x

namespace OrderedModel

/-- `OrderedModel._move(self, up, qs)`. Returns the in-memory `self`
after the call, the table after the two saves, and the primary keys of
the rows that were persisted (in save order). When the adjacent-row
query is empty (`IndexError` on `qs[0]`) the method returns early:
nothing changes and nothing is saved. -/
def _move (self : Row) (up : Bool) (qs : List Row) : Row × List Row × List Nat :=
  match (if up then maxBelow self.order qs else minAbove self.order qs) with
  | none => (self, qs, [])
  | some replacement =>
      ({ self with order := replacement.order },
       qs.map (applySwap self.pk replacement.pk self.order replacement.order),
       [self.pk, replacement.pk])

/-- `OrderedModel.move(self, direction, qs)`. -/
def move (self : Row) (direction : String) (qs : List Row) : Row × List Row × List Nat :=
  _move self (direction == "up") qs

/-- `OrderedModel.move_up(self)`, with the default queryset made explicit. -/
def move_up (self : Row) (qs : List Row) : Row × List Row × List Nat :=
  _move self true qs

/-- `OrderedModel.move_down(self)`, with the default queryset made explicit. -/
def move_down (self : Row) (qs : List Row) : Row × List Row × List Nat :=
  _move self false qs

end OrderedModel

/-- An in-memory instance of an `OrderedModel` subclass as seen by `save`:
`pk = none` models a Python-falsy primary key (an unsaved instance). -/
structure SRow where
  pk : Option Nat
  order : Nat
deriving DecidableEq, Repr

/-- `self.__class__.objects.all().aggregate(Max('order')).get('order__max')`:
`none` on an empty table, otherwise the maximal `order` value. -/
def maxOrder : List SRow → Option Nat
  | [] => none
  | r :: rs =>
    match maxOrder rs with
    | none => some r.order
    | some m => some (max r.order m)

/-- The rank `OrderedModel.save` assigns to a new row:
`self.order = c and c + 1 or 0` under Python truthiness, where `c` is
`maxOrder` of the existing rows (`None` and `0` are both falsy, so the
result is `0` whenever `c` is `None` or `0`, and `c + 1` otherwise). -/
def newOrder (rows : List SRow) : Nat :=
  match maxOrder rows with
  | none => 0
  | some c => if c = 0 then 0 else c + 1

/-- `OrderedModel.save(self)`: the instance as persisted by
`super().save()` — the rank assignment runs only when `self.pk` is falsy. -/
def OrderedModel.save (rows : List SRow) (self : SRow) : SRow :=
  if self.pk.isNone then { self with order := newOrder rows } else self

/-- An admin-managed instance of a `UserStampedModel` subclass: primary key
(`none` models a Python-falsy pk, i.e. an object being created) and the
`created_by` / `updated_by` user ids. -/
structure AdminObj where
  pk : Option Nat
  created_by : Option Nat
  updated_by : Option Nat
deriving DecidableEq, Repr

namespace UserStampedAdmin

/-- `UserStampedAdmin.save_model(self, request, obj, form, change)`:
the object as persisted by `obj.save()`. -/
def save_model (user : Nat) (obj : AdminObj) : AdminObj :=
  let o1 := if obj.pk.isNone then { obj with created_by := some user } else obj
  { o1 with updated_by := some user }

/-- `UserStampedAdmin.save_formset(self, request, form, formset, change)`:
each inline object returned by `formset.save(commit=False)` is stamped
and saved the same way. -/
def save_formset (user : Nat) (objs : List AdminObj) : List AdminObj :=
  objs.map (fun obj =>
    let o1 := if obj.pk.isNone then { obj with created_by := some user } else obj
    { o1 with updated_by := some user })

end UserStampedAdmin

/-- A requesting user: an identity plus the `roles` collection used by
`HasRole`. -/
structure ApiUser where
  id : Nat
  roles : List Nat
deriving DecidableEq, Repr

/-- A request as the permission classes see it: HTTP method and
`request.user`. -/
structure Request where
  method : String
  user : ApiUser
deriving DecidableEq, Repr

/-- A view as `HasRole` sees it: the `role` attribute. -/
structure View where
  role : Nat
deriving DecidableEq, Repr

/-- An object with an `owner` attribute, as the owner permissions see it. -/
structure ApiObject where
  owner : ApiUser
deriving DecidableEq, Repr

/-- `rest_framework.permissions.SAFE_METHODS = ('GET', 'HEAD', 'OPTIONS')`. -/
def SAFE_METHODS : List String := ["GET", "HEAD", "OPTIONS"]

/-- `IsOwnerOrReadOnly.has_object_permission`. -/
def IsOwnerOrReadOnly.has_object_permission
    (request : Request) (_view : View) (obj : ApiObject) : Bool :=
  if request.method ∈ SAFE_METHODS then true
  else obj.owner == request.user

/-- `IsOwner.has_object_permission`. -/
def IsOwner.has_object_permission
    (request : Request) (_view : View) (obj : ApiObject) : Bool :=
  obj.owner == request.user

/-- `HasRole.has_permission`: `view.role in request.user.roles`. -/
def HasRole.has_permission (request : Request) (view : View) : Bool :=
  decide (view.role ∈ request.user.roles)

/-- The possible outcomes of `django.shortcuts.get_object_or_404` applied
to a queryset and filter arguments: the object is found, no object
matches (`Http404`), or the filter arguments have the wrong type/value
(`TypeError` / `ValueError` from field conversion). -/
inductive LookupOutcome (α : Type) where
  | found : α → LookupOutcome α
  | notFound : LookupOutcome α
  | typeError : LookupOutcome α
  | valueError : LookupOutcome α
deriving DecidableEq, Repr

/-- The exceptions flowing through `edmu/api/shortcuts.py`. -/
inductive PyExc where
  | http404 : PyExc
  | typeError : PyExc
  | valueError : PyExc
  | permissionDenied : PyExc
deriving DecidableEq, Repr

/-- `django.shortcuts.get_object_or_404`: returns the object or raises. -/
def get_object_or_404 {α : Type} : LookupOutcome α → Except PyExc α
  | .found a => .ok a
  | .notFound => .error .http404
  | .typeError => .error .typeError
  | .valueError => .error .valueError

/-- `get_object_or_permission_denied(queryset, **filter_kwargs)`:
delegates to `get_object_or_404`, re-raising `TypeError` and
`ValueError` as `PermissionDenied`; every other outcome propagates. -/
def get_object_or_permission_denied {α : Type} (r : LookupOutcome α) : Except PyExc α :=
  match get_object_or_404 r with
  | .ok a => .ok a
  | .error e =>
      if e = PyExc.typeError ∨ e = PyExc.valueError then .error .permissionDenied
      else .error e

/-- If `maxBelow` finds nothing, no row is strictly below `o`. -/
lemma maxBelow_none {o : Nat} {l : List Row} (h : maxBelow o l = none) :
    ∀ x ∈ l, ¬ x.order < o := by
  induction l with
  | nil => simp
  | cons x xs ih =>
    intro y hy
    by_cases hx : x.order < o
    · exfalso
      cases hmb : maxBelow o xs with
      | none => simp [maxBelow, hmb, hx] at h
      | some b =>
        simp only [maxBelow, hmb, hx, if_true] at h
        split at h <;> exact Option.noConfusion h
    · rcases List.mem_cons.mp hy with rfl | hy'
      · exact hx
      · have hxs : maxBelow o xs = none := by simpa [maxBelow, hx] using h
        exact ih hxs y hy'

/-- If some row is strictly below `o`, `maxBelow` finds one. -/
lemma maxBelow_isSome {o : Nat} {l : List Row} {y : Row} (hy : y ∈ l)
    (hlt : y.order < o) : (maxBelow o l).isSome := by
  cases h : maxBelow o l with
  | none => exact absurd hlt (maxBelow_none h y hy)
  | some b => rfl

/-- What `maxBelow` returns: a row of the list, strictly below `o`, and of
maximal rank among the rows strictly below `o`. -/
lemma maxBelow_spec {o : Nat} {l : List Row} {r : Row} (h : maxBelow o l = some r) :
    r ∈ l ∧ r.order < o ∧ ∀ x ∈ l, x.order < o → x.order ≤ r.order := by
  induction l generalizing r with
  | nil => simp [maxBelow] at h
  | cons x xs ih =>
    by_cases hx : x.order < o
    · cases hmb : maxBelow o xs with
      | none =>
        simp only [maxBelow, hmb, hx, if_true] at h
        obtain rfl : x = r := Option.some.inj h
        refine ⟨List.mem_cons_self _ _, hx, ?_⟩
        intro z hz hzo
        rcases List.mem_cons.mp hz with rfl | hz'
        · exact Nat.le_refl _
        · exact absurd hzo (maxBelow_none hmb z hz')
      | some b =>
        obtain ⟨hbmem, hbo, hbmax⟩ := ih hmb
        simp only [maxBelow, hmb, hx, if_true] at h
        by_cases hxb : x.order < b.order
        · rw [if_pos hxb] at h
          obtain rfl : b = r := Option.some.inj h
          refine ⟨List.mem_cons_of_mem _ hbmem, hbo, ?_⟩
          intro z hz hzo
          rcases List.mem_cons.mp hz with rfl | hz'
          · exact Nat.le_of_lt hxb
          · exact hbmax z hz' hzo
        · rw [if_neg hxb] at h
          obtain rfl : x = r := Option.some.inj h
          refine ⟨List.mem_cons_self _ _, hx, ?_⟩
          intro z hz hzo
          rcases List.mem_cons.mp hz with rfl | hz'
          · exact Nat.le_refl _
          · exact Nat.le_trans (hbmax z hz' hzo) (Nat.le_of_not_lt hxb)
    · simp only [maxBelow, hx, if_false] at h
      obtain ⟨hmem, hro, hmax⟩ := ih h
      refine ⟨List.mem_cons_of_mem _ hmem, hro, ?_⟩
      intro z hz hzo
      rcases List.mem_cons.mp hz with rfl | hz'
      · exact absurd hzo hx
      · exact hmax z hz' hzo

/-- If `minAbove` finds nothing, no row is strictly above `o`. -/
lemma minAbove_none {o : Nat} {l : List Row} (h : minAbove o l = none) :
    ∀ x ∈ l, ¬ o < x.order := by
  induction l with
  | nil => simp
  | cons x xs ih =>
    intro y hy
    by_cases hx : o < x.order
    · exfalso
      cases hmb : minAbove o xs with
      | none => simp [minAbove, hmb, hx] at h
      | some b =>
        simp only [minAbove, hmb, hx, if_true] at h
        split at h <;> exact Option.noConfusion h
    · rcases List.mem_cons.mp hy with rfl | hy'
      · exact hx
      · have hxs : minAbove o xs = none := by simpa [minAbove, hx] using h
        exact ih hxs y hy'

/-- If some row is strictly above `o`, `minAbove` finds one. -/
lemma minAbove_isSome {o : Nat} {l : List Row} {y : Row} (hy : y ∈ l)
    (hlt : o < y.order) : (minAbove o l).isSome := by
  cases h : minAbove o l with
  | none => exact absurd hlt (minAbove_none h y hy)
  | some b => rfl

/-- What `minAbove` returns: a row of the list, strictly above `o`, and of
minimal rank among the rows strictly above `o`. -/
lemma minAbove_spec {o : Nat} {l : List Row} {r : Row} (h : minAbove o l = some r) :
    r ∈ l ∧ o < r.order ∧ ∀ x ∈ l, o < x.order → r.order ≤ x.order := by
  induction l generalizing r with
  | nil => simp [minAbove] at h
  | cons x xs ih =>
    by_cases hx : o < x.order
    · cases hmb : minAbove o xs with
      | none =>
        simp only [minAbove, hmb, hx, if_true] at h
        obtain rfl : x = r := Option.some.inj h
        refine ⟨List.mem_cons_self _ _, hx, ?_⟩
        intro z hz hzo
        rcases List.mem_cons.mp hz with rfl | hz'
        · exact Nat.le_refl _
        · exact absurd hzo (minAbove_none hmb z hz')
      | some b =>
        obtain ⟨hbmem, hbo, hbmin⟩ := ih hmb
        simp only [minAbove, hmb, hx, if_true] at h
        by_cases hbx : b.order < x.order
        · rw [if_pos hbx] at h
          obtain rfl : b = r := Option.some.inj h
          refine ⟨List.mem_cons_of_mem _ hbmem, hbo, ?_⟩
          intro z hz hzo
          rcases List.mem_cons.mp hz with rfl | hz'
          · exact Nat.le_of_lt hbx
          · exact hbmin z hz' hzo
        · rw [if_neg hbx] at h
          obtain rfl : x = r := Option.some.inj h
          refine ⟨List.mem_cons_self _ _, hx, ?_⟩
          intro z hz hzo
          rcases List.mem_cons.mp hz with rfl | hz'
          · exact Nat.le_refl _
          · exact Nat.le_trans (Nat.le_of_not_lt hbx) (hbmin z hz' hzo)
    · simp only [minAbove, hx, if_false] at h
      obtain ⟨hmem, hro, hmin⟩ := ih h
      refine ⟨List.mem_cons_of_mem _ hmem, hro, ?_⟩
      intro z hz hzo
      rcases List.mem_cons.mp hz with rfl | hz'
      · exact absurd hzo hx
      · exact hmin z hz' hzo

/-- `applySwap` leaves a row keyed by neither primary key unchanged. -/
lemma applySwap_of_ne {sp rp so ro : Nat} {x : Row} (h1 : x.pk ≠ sp) (h2 : x.pk ≠ rp) :
    applySwap sp rp so ro x = x := by
  simp [applySwap, h1, h2]

/-- Mapping a function that fixes every element of a list is the identity. -/
lemma map_fix {f : Row → Row} {l : List Row} (h : ∀ x ∈ l, f x = x) :
    l.map f = l := by
  induction l with
  | nil => rfl
  | cons x xs ih =>
    simp [h x (List.mem_cons_self x xs), ih (fun y hy => h y (List.mem_cons_of_mem x hy))]

/-- In a table with `Nodup` primary keys, a row's key differs from the key of
every row on either side of it. -/
lemma pk_ne_of_nodup {l1 l2 : List Row} {a : Row}
    (h : ((l1 ++ a :: l2).map Row.pk).Nodup) :
    (∀ x ∈ l1, x.pk ≠ a.pk) ∧ (∀ x ∈ l2, x.pk ≠ a.pk) := by
  rw [List.map_append, List.map_cons, List.nodup_append] at h
  obtain ⟨_, h2, hdisj⟩ := h
  rw [List.nodup_cons] at h2
  constructor
  · intro x hx heq
    have hx' : x.pk ∈ l1.map Row.pk := List.mem_map_of_mem Row.pk hx
    have ha' : x.pk ∈ a.pk :: l2.map Row.pk := by
      rw [heq]; exact List.mem_cons_self _ _
    exact hdisj hx' ha'
  · intro x hx heq
    have hx' : x.pk ∈ l2.map Row.pk := List.mem_map_of_mem Row.pk hx
    rw [heq] at hx'
    exact h2.1 hx'

/-- Rewriting the stored ranks at two fixed positions of a table with each
other's rank permutes the list of stored ranks. -/
lemma two_point_orders_perm (u v1 v2 : List Row) (a c : Row) (oa oc : Nat)
    (f : Row → Row)
    (hu : ∀ x ∈ u, f x = x) (hv1 : ∀ x ∈ v1, f x = x) (hv2 : ∀ x ∈ v2, f x = x)
    (hfa : (f a).order = oc) (hfc : (f c).order = oa)
    (ha : a.order = oa) (hc : c.order = oc) :
    (((u ++ (a :: (v1 ++ (c :: v2)))).map f).map Row.order).Perm
      ((u ++ (a :: (v1 ++ (c :: v2)))).map Row.order) := by
  simp only [List.map_append, List.map_cons]
  rw [map_fix hu, map_fix hv1, map_fix hv2, hfa, hfc, ha, hc]
  apply List.Perm.append_left
  exact (List.Perm.cons _ List.perm_middle).trans
    ((List.Perm.swap _ _ _).trans (List.Perm.cons _ List.perm_middle.symm))

/-- Swapping the ranks of two distinct rows of a table (by primary key)
permutes the list of stored ranks. -/
lemma swap_orders_perm (qs : List Row) (s r : Row)
    (hpk : (qs.map Row.pk).Nodup) (hs : s ∈ qs) (hr : r ∈ qs)
    (hne : s.pk ≠ r.pk) :
    ((qs.map (applySwap s.pk r.pk s.order r.order)).map Row.order).Perm
      (qs.map Row.order) := by
  obtain ⟨u, v, rfl⟩ := List.append_of_mem hs
  have hfs : (applySwap s.pk r.pk s.order r.order s).order = r.order := by
    simp [applySwap]
  have hfr : (applySwap s.pk r.pk s.order r.order r).order = s.order := by
    simp [applySwap, Ne.symm hne]
  rcases List.mem_append.mp hr with hru | hrsv
  · -- r lies to the left of s
    obtain ⟨u1, u2, rfl⟩ := List.append_of_mem hru
    have hsfacts := pk_ne_of_nodup hpk
    have hpk' : ((u1 ++ (r :: (u2 ++ (s :: v)))).map Row.pk).Nodup := by
      simpa [List.append_assoc] using hpk
    have hrfacts := pk_ne_of_nodup hpk'
    rw [List.append_assoc, List.cons_append]
    refine two_point_orders_perm u1 u2 v r s r.order s.order _
      ?_ ?_ ?_ hfr hfs rfl rfl
    · intro x hx
      exact applySwap_of_ne
        (hsfacts.1 x (List.mem_append_left _ hx))
        (hrfacts.1 x hx)
    · intro x hx
      exact applySwap_of_ne
        (hsfacts.1 x (List.mem_append_right _ (List.mem_cons_of_mem _ hx)))
        (hrfacts.2 x (List.mem_append_left _ hx))
    · intro x hx
      exact applySwap_of_ne
        (hsfacts.2 x hx)
        (hrfacts.2 x (List.mem_append_right _ (List.mem_cons_of_mem _ hx)))
  · rcases List.mem_cons.mp hrsv with heq | hrv
    · exact absurd (congrArg Row.pk heq.symm) hne
    · -- r lies to the right of s
      obtain ⟨v1, v2, rfl⟩ := List.append_of_mem hrv
      have hsfacts := pk_ne_of_nodup hpk
      have hpk' : (((u ++ (s :: v1)) ++ (r :: v2)).map Row.pk).Nodup := by
        simpa [List.append_assoc] using hpk
      have hrfacts := pk_ne_of_nodup hpk'
      refine two_point_orders_perm u v1 v2 s r s.order r.order _
        ?_ ?_ ?_ hfs hfr rfl rfl
      · intro x hx
        exact applySwap_of_ne
          (hsfacts.1 x hx)
          (hrfacts.1 x (List.mem_append_left _ hx))
      · intro x hx
        exact applySwap_of_ne
          (hsfacts.2 x (List.mem_append_left _ hx))
          (hrfacts.1 x (List.mem_append_right _ (List.mem_cons_of_mem _ hx)))
      · intro x hx
        exact applySwap_of_ne
          (hsfacts.2 x (List.mem_append_right _ (List.mem_cons_of_mem _ hx)))
          (hrfacts.2 x hx)

/-- With pairwise-distinct ranks, `maxBelow` returns exactly the row whose
rank is greatest among those strictly below `self`'s. -/
lemma maxBelow_eq_of_greatest {qs : List Row} {o : Nat} {b : Row}
    (hord : (qs.map Row.order).Nodup)
    (hb : b ∈ qs) (hlt : b.order < o)
    (hmax : ∀ x ∈ qs, x.order < o → x.order ≤ b.order) :
    maxBelow o qs = some b := by
  cases h : maxBelow o qs with
  | none => exact absurd hlt (maxBelow_none h b hb)
  | some r =>
    obtain ⟨hrm, hro, hrmax⟩ := maxBelow_spec h
    have heq : r = b :=
      List.inj_on_of_nodup_map hord hrm hb
        (Nat.le_antisymm (hmax r hrm hro) (hrmax b hb hlt))
    rw [heq]

/-- With pairwise-distinct ranks, `minAbove` returns exactly the row whose
rank is least among those strictly above `self`'s. -/
lemma minAbove_eq_of_least {qs : List Row} {o : Nat} {b : Row}
    (hord : (qs.map Row.order).Nodup)
    (hb : b ∈ qs) (hgt : o < b.order)
    (hmin : ∀ x ∈ qs, o < x.order → b.order ≤ x.order) :
    minAbove o qs = some b := by
  cases h : minAbove o qs with
  | none => exact absurd hgt (minAbove_none h b hb)
  | some r =>
    obtain ⟨hrm, hro, hrmin⟩ := minAbove_spec h
    have heq : r = b :=
      List.inj_on_of_nodup_map hord hrm hb
        (Nat.le_antisymm (hrmin b hb hgt) (hmin r hrm hro))
    rw [heq]

/-- A `_move` that found a replacement permutes the stored ranks of the
table with any row of the table as mover. -/
lemma _move_orders_perm (self : Row) (up : Bool) (qs : List Row)
    (hpk : (qs.map Row.pk).Nodup) (hself : self ∈ qs) :
    ((OrderedModel._move self up qs).2.1.map Row.order).Perm
      (qs.map Row.order) := by
  cases up with
  | true =>
    cases h : maxBelow self.order qs with
    | none => simp [OrderedModel._move, h]
    | some r =>
      obtain ⟨hrm, hro, _⟩ := maxBelow_spec h
      have hne : self.pk ≠ r.pk := by
        intro hpkeq
        have heq : self = r := List.inj_on_of_nodup_map hpk hself hrm hpkeq
        rw [heq] at hro
        exact Nat.lt_irrefl _ hro
      simp only [OrderedModel._move, if_true, h]
      exact swap_orders_perm qs self r hpk hself hrm hne
  | false =>
    cases h : minAbove self.order qs with
    | none => simp [OrderedModel._move, h]
    | some r =>
      obtain ⟨hrm, hro, _⟩ := minAbove_spec h
      have hne : self.pk ≠ r.pk := by
        intro hpkeq
        have heq : self = r := List.inj_on_of_nodup_map hpk hself hrm hpkeq
        rw [heq] at hro
        exact Nat.lt_irrefl _ hro
      simp only [OrderedModel._move, Bool.false_eq_true, if_false, h]
      exact swap_orders_perm qs self r hpk hself hrm hne

/-- C2: moving the row of minimal rank up, or the row of maximal rank down,
leaves the whole table (and the in-memory instance) unchanged and persists
nothing. -/
theorem move_boundary_noop (qs : List Row) (first last : Row)
    (_hf : first ∈ qs) (_hl : last ∈ qs)
    (hmin : ∀ x ∈ qs, first.order ≤ x.order)
    (hmax : ∀ x ∈ qs, x.order ≤ last.order) :
    OrderedModel.move_up first qs = (first, qs, []) ∧
    OrderedModel.move_down last qs = (last, qs, []) := by
  constructor
  · have h : maxBelow first.order qs = none := by
      cases h : maxBelow first.order qs with
      | none => rfl
      | some r =>
        obtain ⟨hrm, hro, _⟩ := maxBelow_spec h
        exact absurd hro (Nat.not_lt.mpr (hmin r hrm))
    simp [OrderedModel.move_up, OrderedModel._move, h]
  · have h : minAbove last.order qs = none := by
      cases h : minAbove last.order qs with
      | none => rfl
      | some r =>
        obtain ⟨hrm, hro, _⟩ := minAbove_spec h
        exact absurd hro (Nat.not_lt.mpr (hmax r hrm))
    simp [OrderedModel.move_down, OrderedModel._move, h]

/-- Witness for C2 on a concrete two-row table. -/
theorem move_boundary_noop_witness :
    OrderedModel.move_up ⟨1, 0⟩ [⟨1, 0⟩, ⟨2, 1⟩] = (⟨1, 0⟩, [⟨1, 0⟩, ⟨2, 1⟩], []) ∧
    OrderedModel.move_down ⟨2, 1⟩ [⟨1, 0⟩, ⟨2, 1⟩] = (⟨2, 1⟩, [⟨1, 0⟩, ⟨2, 1⟩], []) :=
  move_boundary_noop [⟨1, 0⟩, ⟨2, 1⟩] ⟨1, 0⟩ ⟨2, 1⟩
    (by decide) (by decide) (by decide) (by decide)

/-- C4: on a table with pairwise-distinct ranks, `move_up` on a non-first
row swaps its rank with the row of greatest rank strictly below it, and
`move_down` on a non-last row swaps its rank with the row of least rank
strictly above it; exactly those two rows are persisted. -/
theorem move_swaps_with_adjacent (qs : List Row)
    (hord : (qs.map Row.order).Nodup) :
    (∀ self b, self ∈ qs → b ∈ qs → b.order < self.order →
      (∀ x ∈ qs, x.order < self.order → x.order ≤ b.order) →
      OrderedModel.move_up self qs =
        ({ self with order := b.order },
         qs.map (applySwap self.pk b.pk self.order b.order),
         [self.pk, b.pk])) ∧
    (∀ self b, self ∈ qs → b ∈ qs → self.order < b.order →
      (∀ x ∈ qs, self.order < x.order → b.order ≤ x.order) →
      OrderedModel.move_down self qs =
        ({ self with order := b.order },
         qs.map (applySwap self.pk b.pk self.order b.order),
         [self.pk, b.pk])) := by
  constructor
  · intro self b hself hb hlt hmax
    have h := maxBelow_eq_of_greatest hord hb hlt hmax
    simp [OrderedModel.move_up, OrderedModel._move, h]
  · intro self b hself hb hgt hmin
    have h := minAbove_eq_of_least hord hb hgt hmin
    simp [OrderedModel.move_down, OrderedModel._move, h]

/-- Witness for C4 on a concrete two-row table. -/
theorem move_swaps_with_adjacent_witness :
    OrderedModel.move_up ⟨2, 1⟩ [⟨1, 0⟩, ⟨2, 1⟩] =
      (⟨2, 0⟩, [⟨1, 0⟩, ⟨2, 1⟩].map (applySwap 2 1 1 0), [2, 1]) ∧
    OrderedModel.move_down ⟨1, 0⟩ [⟨1, 0⟩, ⟨2, 1⟩] =
      (⟨1, 1⟩, [⟨1, 0⟩, ⟨2, 1⟩].map (applySwap 1 2 0 1), [1, 2]) := by
  have h := move_swaps_with_adjacent [⟨1, 0⟩, ⟨2, 1⟩] (by decide)
  exact ⟨h.1 ⟨2, 1⟩ ⟨1, 0⟩ (by decide) (by decide) (by decide) (by decide),
         h.2 ⟨1, 0⟩ ⟨2, 1⟩ (by decide) (by decide) (by decide) (by decide)⟩

/-- C9: any `_move` (either direction, boundary or not) preserves the
multiset of stored `order` values of the table: ranks are only exchanged,
never invented. -/
theorem move_preserves_rank_multiset (self : Row) (up : Bool) (qs : List Row)
    (hpk : (qs.map Row.pk).Nodup) (hself : self ∈ qs) :
    (((OrderedModel._move self up qs).2.1.map Row.order : List ℕ) : Multiset ℕ)
      = ((qs.map Row.order : List ℕ) : Multiset ℕ) :=
  Multiset.coe_eq_coe.mpr (_move_orders_perm self up qs hpk hself)

/-- Witness for C9 on a concrete two-row table. -/
theorem move_preserves_rank_multiset_witness :
    (((OrderedModel._move ⟨2, 1⟩ true [⟨1, 0⟩, ⟨2, 1⟩]).2.1.map Row.order
        : List ℕ) : Multiset ℕ)
      = (([0, 1] : List ℕ) : Multiset ℕ) :=
  move_preserves_rank_multiset ⟨2, 1⟩ true [⟨1, 0⟩, ⟨2, 1⟩] (by decide) (by decide)

/-- C3: on a table with distinct ranks and distinct primary keys,
`move_up` on a non-first row followed by `move_down` on that same
(now updated) instance restores every stored row — the adjacent-rank
swap is its own inverse — and restores the in-memory instance as well. -/
theorem move_up_then_down_restores (qs : List Row) (self : Row)
    (hpk : (qs.map Row.pk).Nodup) (hord : (qs.map Row.order).Nodup)
    (hself : self ∈ qs) (hnotfirst : ∃ x ∈ qs, x.order < self.order) :
    (OrderedModel.move_down (OrderedModel.move_up self qs).1
        (OrderedModel.move_up self qs).2.1).2.1 = qs ∧
    (OrderedModel.move_down (OrderedModel.move_up self qs).1
        (OrderedModel.move_up self qs).2.1).1 = self := by
  obtain ⟨y, hy, hylt⟩ := hnotfirst
  obtain ⟨b, hb⟩ := Option.isSome_iff_exists.mp (maxBelow_isSome hy hylt)
  obtain ⟨hbm, hbo, hbmax⟩ := maxBelow_spec hb
  have hbpk : b.pk ≠ self.pk := by
    intro h
    have heq := List.inj_on_of_nodup_map hpk hbm hself h
    rw [heq] at hbo
    exact Nat.lt_irrefl _ hbo
  have h1 : OrderedModel.move_up self qs =
      ({ self with order := b.order },
       qs.map (applySwap self.pk b.pk self.order b.order),
       [self.pk, b.pk]) := by
    simp [OrderedModel.move_up, OrderedModel._move, hb]
  rw [h1]
  show (OrderedModel.move_down { self with order := b.order }
      (qs.map (applySwap self.pk b.pk self.order b.order))).2.1 = qs ∧
    (OrderedModel.move_down { self with order := b.order }
      (qs.map (applySwap self.pk b.pk self.order b.order))).1 = self
  have hfs : applySwap self.pk b.pk self.order b.order self =
      ⟨self.pk, b.order⟩ := by
    simp [applySwap]
  have hfb : applySwap self.pk b.pk self.order b.order b =
      ⟨b.pk, self.order⟩ := by
    simp [applySwap, hbpk]
  have hb1mem : (⟨b.pk, self.order⟩ : Row) ∈
      qs.map (applySwap self.pk b.pk self.order b.order) := by
    rw [← hfb]
    exact List.mem_map_of_mem _ hbm
  have hord1 : ((qs.map (applySwap self.pk b.pk self.order b.order)).map
      Row.order).Nodup :=
    ((swap_orders_perm qs self b hpk hself hbm (Ne.symm hbpk)).nodup_iff).mpr hord
  have hmin1 : ∀ z ∈ qs.map (applySwap self.pk b.pk self.order b.order),
      b.order < z.order → self.order ≤ z.order := by
    intro z hz hzgt
    obtain ⟨x, hx, rfl⟩ := List.mem_map.mp hz
    by_cases hxs : x.pk = self.pk
    · have hxx : x = self := List.inj_on_of_nodup_map hpk hx hself hxs
      rw [hxx, hfs] at hzgt
      exact absurd hzgt (Nat.lt_irrefl _)
    · by_cases hxb : x.pk = b.pk
      · have hxx : x = b := List.inj_on_of_nodup_map hpk hx hbm hxb
        rw [hxx, hfb]
      · rw [applySwap_of_ne hxs hxb] at hzgt ⊢
        by_cases hxlt : x.order < self.order
        · exact absurd (hbmax x hx hxlt) (Nat.not_le.mpr hzgt)
        · exact Nat.le_of_not_lt hxlt
  have h2 : minAbove b.order
      (qs.map (applySwap self.pk b.pk self.order b.order)) =
      some ⟨b.pk, self.order⟩ :=
    minAbove_eq_of_least hord1 hb1mem hbo hmin1
  have h3 : OrderedModel.move_down { self with order := b.order }
      (qs.map (applySwap self.pk b.pk self.order b.order)) =
      (self,
       (qs.map (applySwap self.pk b.pk self.order b.order)).map
         (applySwap self.pk b.pk b.order self.order),
       [self.pk, b.pk]) := by
    simp [OrderedModel.move_down, OrderedModel._move, h2]
  rw [h3]
  refine ⟨?_, rfl⟩
  show (qs.map (applySwap self.pk b.pk self.order b.order)).map
      (applySwap self.pk b.pk b.order self.order) = qs
  rw [List.map_map]
  apply map_fix
  intro x hx
  by_cases hxs : x.pk = self.pk
  · have hxx : x = self := List.inj_on_of_nodup_map hpk hx hself hxs
    rw [hxx]
    show applySwap self.pk b.pk b.order self.order
      (applySwap self.pk b.pk self.order b.order self) = self
    rw [hfs]
    simp [applySwap]
  · by_cases hxb : x.pk = b.pk
    · have hxx : x = b := List.inj_on_of_nodup_map hpk hx hbm hxb
      rw [hxx]
      show applySwap self.pk b.pk b.order self.order
        (applySwap self.pk b.pk self.order b.order b) = b
      rw [hfb]
      simp [applySwap, hbpk]
    · show applySwap self.pk b.pk b.order self.order
        (applySwap self.pk b.pk self.order b.order x) = x
      rw [applySwap_of_ne hxs hxb, applySwap_of_ne hxs hxb]

/-- Witness for C3 on a concrete two-row table. -/
theorem move_up_then_down_restores_witness :
    (OrderedModel.move_down (OrderedModel.move_up ⟨2, 1⟩ [⟨1, 0⟩, ⟨2, 1⟩]).1
        (OrderedModel.move_up ⟨2, 1⟩ [⟨1, 0⟩, ⟨2, 1⟩]).2.1).2.1
      = [⟨1, 0⟩, ⟨2, 1⟩] ∧
    (OrderedModel.move_down (OrderedModel.move_up ⟨2, 1⟩ [⟨1, 0⟩, ⟨2, 1⟩]).1
        (OrderedModel.move_up ⟨2, 1⟩ [⟨1, 0⟩, ⟨2, 1⟩]).2.1).1 = ⟨2, 1⟩ :=
  move_up_then_down_restores [⟨1, 0⟩, ⟨2, 1⟩] ⟨2, 1⟩
    (by decide) (by decide) (by decide) (by decide)

/-- C1 (code bug): with one existing row of rank 0 — exactly the state the
first save of a fresh table produces — the maximum of `order` is 0, yet the
rank assigned to a newly saved row (`c and c + 1 or 0`) is again 0, not
max + 1 = 1: the rank is duplicated because `0` is falsy in Python. -/
theorem save_new_duplicates_rank_at_zero_max :
    maxOrder [⟨some 1, 0⟩] = some 0 ∧
    (OrderedModel.save [⟨some 1, 0⟩] ⟨none, 7⟩).order = 0 ∧
    newOrder [] = 0 ∧ newOrder [⟨some 1, 3⟩] = 4 :=
  ⟨rfl, rfl, rfl, rfl⟩

/-- C10: saving an instance that already has a primary key leaves its
`order` field unchanged — the rank assignment runs only on creation. -/
theorem save_existing_keeps_order (rows : List SRow) (self : SRow)
    (h : self.pk.isSome) :
    (OrderedModel.save rows self).order = self.order := by
  cases hp : self.pk with
  | none => rw [hp] at h; exact absurd h (by simp)
  | some k => simp [OrderedModel.save, hp]

/-- Witness for C10 at a concrete row. -/
theorem save_existing_keeps_order_witness :
    (OrderedModel.save [⟨some 1, 0⟩] ⟨some 2, 5⟩).order = 5 :=
  save_existing_keeps_order [⟨some 1, 0⟩] ⟨some 2, 5⟩ (by decide)

/-- C5: `IsOwner` grants object permission exactly when the object's owner
is the requesting user; `IsOwnerOrReadOnly` grants it exactly when the
method is safe or the owner is the requesting user, and in particular
always grants it for safe methods. -/
theorem owner_permissions_iff (request : Request) (view : View)
    (obj : ApiObject) :
    (IsOwner.has_object_permission request view obj = true ↔
      obj.owner = request.user) ∧
    (IsOwnerOrReadOnly.has_object_permission request view obj = true ↔
      (request.method ∈ SAFE_METHODS ∨ obj.owner = request.user)) ∧
    (request.method ∈ SAFE_METHODS →
      IsOwnerOrReadOnly.has_object_permission request view obj = true) := by
  refine ⟨?_, ?_, ?_⟩
  · simp [IsOwner.has_object_permission]
  · by_cases h : request.method ∈ SAFE_METHODS <;>
      simp [IsOwnerOrReadOnly.has_object_permission, h]
  · intro h
    simp [IsOwnerOrReadOnly.has_object_permission, h]

/-- C8: `HasRole` grants permission exactly when the view's `role`
attribute is one of the requesting user's roles. -/
theorem has_role_iff (request : Request) (view : View) :
    HasRole.has_permission request view = true ↔
      view.role ∈ request.user.roles := by
  simp [HasRole.has_permission]

/-- C6: the shortcut raises `PermissionDenied` exactly when the underlying
`get_object_or_404` raises `TypeError` or `ValueError` (the wrong-type
filter condition the plain DRF shortcut would surface as a generic
not-found); on success it returns the very object the standard shortcut
returns; a plain not-found (`Http404`) is delegated unchanged. -/
theorem permission_denied_iff_bad_filter {α : Type} (r : LookupOutcome α) :
    (get_object_or_permission_denied r = Except.error PyExc.permissionDenied ↔
      (get_object_or_404 r = Except.error PyExc.typeError ∨
       get_object_or_404 r = Except.error PyExc.valueError)) ∧
    (∀ a : α, get_object_or_404 r = Except.ok a →
      get_object_or_permission_denied r = Except.ok a) ∧
    (get_object_or_404 r = Except.error PyExc.http404 →
      get_object_or_permission_denied r = Except.error PyExc.http404) := by
  cases r <;>
    simp [get_object_or_404, get_object_or_permission_denied]

/-- C7: an admin save stamps `updated_by` with the acting user on every
save, stamps `created_by` with the acting user exactly on creation
(no primary key), leaves `created_by` untouched on updates, and
`save_formset` applies the very same stamping to every inline object. -/
theorem admin_save_stamps_users (user : Nat) (obj : AdminObj)
    (objs : List AdminObj) :
    (UserStampedAdmin.save_model user obj).updated_by = some user ∧
    (obj.pk = none →
      (UserStampedAdmin.save_model user obj).created_by = some user) ∧
    (obj.pk ≠ none →
      (UserStampedAdmin.save_model user obj).created_by = obj.created_by) ∧
    UserStampedAdmin.save_formset user objs =
      objs.map (UserStampedAdmin.save_model user) := by
  refine ⟨?_, ?_, ?_, rfl⟩
  · cases hp : obj.pk <;> simp [UserStampedAdmin.save_model, hp]
  · intro hp
    simp [UserStampedAdmin.save_model, hp]
  · intro hp
    cases hp2 : obj.pk with
    | none => exact absurd hp2 hp
    | some k => simp [UserStampedAdmin.save_model, hp2]

end Edmu
